import Mathlib

/-!
Verification of the llama-chat conversational front-end (developer239/llama-chat).

We shallowly embed the generation loop, conversation state and sampling
pipeline of `src/llama-chat.cpp`, the stop-marker detector of
`src/llama-wrapper.cpp`, and the reference decode loop of `src/main.cpp`.
Text is modelled as `List Char`; the inference engine (llama.cpp) is an
abstract oracle supplying tokenization results, decode statuses, sampled
tokens and detokenized pieces.  Floating point scores are modelled as
rationals.
-/

set_option maxRecDepth 4000

abbrev Str := List Char

/-- Prefix test on character lists (model of `std::string` window compare). -/
def isPrefOf : Str → Str → Bool
  | [], _ => true
  | _ :: _, [] => false
  | a :: as, b :: bs => if a = b then isPrefOf as bs else false

/-- Model of `std::string::find`: index of the first occurrence of `pat`
in `s`, scanning left to right, `none` when absent. -/
def findSub : Str → Str → Option Nat
  | s, pat =>
    if isPrefOf pat s then some 0
    else
      match s with
      | [] => none
      | _ :: s' => (findSub s' pat).map (· + 1)

/-- Model of `s.find(pat) != std::string::npos`. -/
def containsSub (s pat : Str) : Bool := (findSub s pat).isSome

theorem isPrefOf_append (p l t : Str) (h : isPrefOf p l = true) :
    isPrefOf p (l ++ t) = true := by
  induction p generalizing l with
  | nil => simp [isPrefOf]
  | cons a as ih =>
    cases l with
    | nil => simp [isPrefOf] at h
    | cons b bs =>
      simp only [isPrefOf, List.cons_append] at h ⊢
      by_cases hab : a = b
      · simp [hab] at h ⊢; exact ih bs h
      · simp [hab] at h

theorem findSub_some (s pat : Str) (i : Nat) (h : findSub s pat = some i) :
    i ≤ s.length ∧ isPrefOf pat (s.drop i) = true := by
  induction s generalizing i with
  | nil =>
    rw [findSub] at h
    by_cases hp : isPrefOf pat [] = true
    · simp [hp] at h; subst h; simpa using hp
    · simp [hp] at h
  | cons c s' ih =>
    rw [findSub] at h
    by_cases hp : isPrefOf pat (c :: s') = true
    · simp [hp] at h; subst h; simpa using hp
    · simp [hp] at h
      obtain ⟨j, hj, hji⟩ := h
      obtain ⟨h1, h2⟩ := ih j hj
      subst hji
      constructor
      · simpa using Nat.succ_le_succ h1
      · simpa using h2

theorem findSub_isSome_of (s pat : Str) (i : Nat) (hi : i ≤ s.length)
    (h : isPrefOf pat (s.drop i) = true) : containsSub s pat = true := by
  induction s generalizing i with
  | nil =>
    have hz : i = 0 := by simpa using hi
    subst hz
    simp only [List.drop_nil] at h
    simp [containsSub, findSub, h]
  | cons c s' ih =>
    rw [containsSub, findSub]
    by_cases hp : isPrefOf pat (c :: s') = true
    · simp [hp]
    · simp only [hp, if_false]
      cases i with
      | zero => simp at h; exact absurd h hp
      | succ j =>
        have := ih j (by simpa using hi) (by simpa using h)
        rw [containsSub] at this
        cases hfs : findSub s' pat with
        | none => rw [hfs] at this; simp at this
        | some k => simp

/-- An occurrence survives appending more text on the right. -/
theorem containsSub_append (s t pat : Str) (h : containsSub s pat = true) :
    containsSub (s ++ t) pat = true := by
  rw [containsSub] at h
  cases hfs : findSub s pat with
  | none => rw [hfs] at h; simp at h
  | some i =>
    obtain ⟨h1, h2⟩ := findSub_some s pat i hfs
    have hdrop : (s ++ t).drop i = s.drop i ++ t := List.drop_append_of_le_length h1
    apply findSub_isSome_of (s ++ t) pat i
    · simp; omega
    · rw [hdrop]; exact isPrefOf_append _ _ _ h2

theorem containsSub_of_findSub (s pat : Str) (i : Nat) (h : findSub s pat = some i) :
    containsSub s pat = true := by
  rw [containsSub, h]; rfl

/-! ## Conversation state and generation loop of `src/llama-chat.cpp` -/

namespace LlamaChat

/-- Model of `LlamaChat::Impl::Message` (llama-chat.cpp:120-123). -/
structure Message where
  role : Str
  content : Str
deriving DecidableEq, Repr

/-- Model of `SamplingParams` (llama-chat.h:28-37); floats are modelled as rationals,
`repeatPenaltyTokens` as raw token ids. -/
structure SamplingParams where
  maxTokens : Nat
  temperature : ℚ
  topK : Int
  topP : ℚ
  repeatPenalty : ℚ
  frequencyPenalty : ℚ
  presencePenalty : ℚ
  repeatPenaltyTokens : List Int
deriving DecidableEq, Repr

/-- One entry appended by `llama_batch_add`: token id, position, and the
evaluate-logits flag. -/
structure BatchEntry where
  token : Int
  pos : Nat
  logits : Bool
deriving DecidableEq, Repr

/-- Abstract inference-engine oracle (the llama.cpp collaborator).
`tokenizeRaw` returns the count reported by `llama_tokenize` (negative on
failure) together with the token buffer; `decodeOk i` is the success of the
`i`-th `llama_decode` call of one `RunQueryStream` invocation (`0` is the
prefill call); `sample n` is the token the sampling pipeline returns at
position cursor `n`; `pieceOf` is `llama_token_to_piece`; `eot` is the
`<|eot_id|>` token id resolved at context initialization. -/
structure Engine where
  tokenizeRaw : Str → Int × List Int
  decodeOk : Nat → Bool
  sample : Nat → Int
  pieceOf : Int → Str
  eot : Int

/-- Model of `LlamaChat::Impl::Encode` (llama-chat.cpp:59-90): a negative reported
count is swallowed and turned into an empty token list; otherwise the buffer
is resized to the reported count. -/
def Encode (eng : Engine) (text : Str) : List Int :=
  let r := eng.tokenizeRaw text
  if r.1 < 0 then [] else r.2.take r.1.toNat

/-- Model of `LlamaChat::Impl::BuildPrompt` (llama-chat.cpp:130-139). -/
def BuildPrompt (hist : List Message) : Str :=
  "<|begin_of_text|>".data
    ++ (hist.map (fun m =>
          "<|start_header_id|>".data ++ m.role ++ "<|end_header_id|>".data
            ++ m.content ++ "<|eot_id|>".data)).foldr (· ++ ·) []
    ++ "<|start_header_id|>assistant<|end_header_id|>".data

/-- The special-token table of `LlamaChat::Impl::IsSpecialToken`
(llama-chat.cpp:236-239). -/
def specialTokens : List Str :=
  ["<|begin_of_text|>".data, "<|end_of_text|>".data, "<|start_header_id|>".data,
   "<|end_header_id|>".data, "<|eot_id|>".data]

/-- Model of `LlamaChat::Impl::IsSpecialToken` (llama-chat.cpp:235-246): substring
scan of every special-token rendering over the piece. -/
def IsSpecialToken (piece : Str) : Bool :=
  specialTokens.any (fun t => containsSub piece t)

/-- Effect of `llama_batch_add` over the prompt tokens (llama-chat.cpp:196-198):
positions count up from the start index, evaluate-logits flag `false`. -/
def prefillBatch : Nat → List Int → List BatchEntry
  | _, [] => []
  | i, t :: ts => ⟨t, i, false⟩ :: prefillBatch (i + 1) ts

/-- The one-token batches submitted by the decode loop
(llama-chat.cpp:222-223): each carries the sampled token at the current
position cursor with evaluate-logits flag `true`. -/
def loopBatches : Nat → List Int → List (List BatchEntry)
  | _, [] => []
  | n, t :: ts => [⟨t, n, true⟩] :: loopBatches (n + 1) ts

/-- Mutable state of the `while` loop in `RunQueryStream`
(llama-chat.cpp:204-229). -/
structure LoopState where
  nCur : Nat
  callIdx : Nat
  resp : Str
  cur : Str
  emitted : List Str
  batches : List (List BatchEntry)
deriving DecidableEq, Repr

/-- Result of the generation loop: either clean termination with the
accumulated assistant text, or a thrown `std::runtime_error` (the model of
an engine failure). -/
inductive GenStatus
  | ok (resp : Str)
  | engineError
deriving DecidableEq, Repr

structure LoopOutcome where
  emitted : List Str
  status : GenStatus
  batches : List (List BatchEntry)
deriving DecidableEq, Repr

/-- The conditional emission of `currentPiece` (llama-chat.cpp:216-220):
forward and accumulate the pending text only when it is non-empty and not a
special-token rendering, clearing it afterwards; otherwise keep it
pending. -/
def stepEmit (st : LoopState) (cur : Str) : LoopState :=
  if ¬ IsSpecialToken cur = true ∧ cur ≠ [] then
    ⟨st.nCur, st.callIdx, st.resp ++ cur, [], st.emitted ++ [cur], st.batches⟩
  else ⟨st.nCur, st.callIdx, st.resp, cur, st.emitted, st.batches⟩

/-- The decode `while` loop of `RunQueryStream` (llama-chat.cpp:208-229),
fuel-indexed.  Per iteration: sample a token at the cursor, break on
`<|eot_id|>`, append the detokenized piece to `currentPiece`, emit it only
when it is non-empty and not special, submit a one-token batch with the
logits flag set, advance the cursor, and throw when the decode fails. -/
def decodeLoop (eng : Engine) (maxTokens : Nat) : Nat → LoopState → LoopOutcome
  | 0, st => ⟨st.emitted, .ok st.resp, st.batches⟩
  | fuel + 1, st =>
    if st.nCur < maxTokens then
      if eng.sample st.nCur = eng.eot then ⟨st.emitted, .ok st.resp, st.batches⟩
      else
        let st1 := stepEmit st (st.cur ++ eng.pieceOf (eng.sample st.nCur))
        if eng.decodeOk st.callIdx then
          decodeLoop eng maxTokens fuel
            ⟨st.nCur + 1, st.callIdx + 1, st1.resp, st1.cur, st1.emitted,
             st1.batches ++ [[⟨eng.sample st.nCur, st.nCur, true⟩]]⟩
        else ⟨st1.emitted, .engineError,
              st1.batches ++ [[⟨eng.sample st.nCur, st.nCur, true⟩]]⟩
    else ⟨st.emitted, .ok st.resp, st.batches⟩

/-- Observable result of one `RunQueryStream`/`Prompt` call: the fragments
delivered to the callback, every batch submitted to `llama_decode`, the
conversation history afterwards, and whether a `std::runtime_error`
escaped. -/
structure RunResult where
  emitted : List Str
  batches : List (List BatchEntry)
  history : List Message
  failed : Bool
deriving DecidableEq, Repr

/-- Model of `LlamaChat::Impl::RunQueryStream` (llama-chat.cpp:186-233): build the
prompt, tokenize it, submit it as one prefill batch (all logits flags
`false`), then run the decode loop; on clean completion append one
assistant turn, on a thrown engine error leave the history untouched. -/
def RunQueryStream (eng : Engine) (params : SamplingParams) (hist : List Message) :
    RunResult :=
  let prompt := BuildPrompt hist
  let tokens := Encode eng prompt
  let prefill := prefillBatch 0 tokens
  if eng.decodeOk 0 then
    let out := decodeLoop eng params.maxTokens params.maxTokens
      ⟨tokens.length, 1, [], [], [], [prefill]⟩
    match out.status with
    | .ok resp => ⟨out.emitted, out.batches, hist ++ [⟨"assistant".data, resp⟩], false⟩
    | .engineError => ⟨out.emitted, out.batches, hist, true⟩
  else ⟨[], [prefill], hist, true⟩

/-- Capacity check for the prefill: `llama_batch_init(params.maxTokens, 0, 1)`
(llama-chat.cpp:195) allocates room for exactly `maxTokens` batch entries,
and the prefill performs one `llama_batch_add` per prompt token at
consecutive indices (lines 196-198), so a write lands outside the
allocation — undefined behavior, before the decode loop is ever reached —
exactly when the tokenized prompt is longer than the budget. -/
def prefillOverflow (eng : Engine) (p : SamplingParams) (hist : List Message) : Bool :=
  decide (p.maxTokens < (Encode eng (BuildPrompt hist)).length)

/-- Model of `LlamaChat::Impl::AddUserMessage` (llama-chat.cpp:182-184). -/
def AddUserMessage (hist : List Message) (msg : Str) : List Message :=
  hist ++ [⟨"user".data, msg⟩]

/-- Model of `LlamaChat::Impl::SetSystemPrompt` (llama-chat.cpp:104-107): clears the
history and seeds a single system turn. -/
def SetSystemPrompt (_hist : List Message) (systemPrompt : Str) : List Message :=
  [⟨"system".data, systemPrompt⟩]

/-- Model of `LlamaChat::Impl::ResetConversation` (llama-chat.cpp:109). -/
def ResetConversation (_hist : List Message) : List Message := []

/-- Model of `LlamaChat::Impl::Prompt` (llama-chat.cpp:92-102): append the user turn,
then stream; the outer callback wrapper filters special pieces once more. -/
def Prompt (eng : Engine) (msg : Str) (params : SamplingParams)
    (hist : List Message) : RunResult :=
  let r := RunQueryStream eng params (AddUserMessage hist msg)
  ⟨r.emitted.filter (fun pc => ¬ IsSpecialToken pc = true), r.batches, r.history, r.failed⟩

end LlamaChat

/-! ## Sampling pipeline of `LlamaChat::Impl::SampleToken` (llama-chat.cpp:141-180)

The `llama_sample_*` primitives live in the external llama.cpp library, not
in this repository; they are modelled from the spec's stage descriptions
(section 4.2).  Scores are rationals; the softmax weight function `w`
(the exponential) is an explicit parameter, and the stochastic draw is an
explicit cumulative walk driven by a random number `r` in `[0,1)`. -/

namespace LlamaChat

/-- One `llama_token_data` candidate: token id and current score. -/
structure Cand where
  token : Int
  score : ℚ
deriving DecidableEq, Repr

/-- The initial candidate array (llama-chat.cpp:148-150): every vocabulary
entry with score equal to its raw logit. -/
def candsFrom : Int → List ℚ → List Cand
  | _, [] => []
  | i, l :: ls => ⟨i, l⟩ :: candsFrom (i + 1) ls

def initCands (logits : List ℚ) : List Cand := candsFrom 0 logits

/-- Number of occurrences of a token in the penalty window. -/
def countIn (window : List Int) (t : Int) : Nat :=
  (window.filter (fun x => x = t)).length

/-- Modelled from the spec: `llama_sample_repetition_penalties` (stage 1 of
section 4.2) — for every candidate present in the penalty window, the score
is multiplied by the repetition penalty when non-positive and divided by it
when positive, then reduced by count × frequency penalty and by the presence
penalty; the stage is a no-op when the window is empty or all three weights
are neutral. -/
def applyPenalties (window : List Int) (rep freq pres : ℚ) (cs : List Cand) :
    List Cand :=
  if window = [] ∨ (rep = 1 ∧ freq = 0 ∧ pres = 0) then cs
  else
    cs.map (fun c =>
      let n := countIn window c.token
      if n = 0 then c
      else
        let s := if c.score ≤ 0 then c.score * rep else c.score / rep
        ⟨c.token, s - (n : ℚ) * freq - pres⟩)

/-- Descending insertion by score (ties keep the earlier element first). -/
def insertDesc (c : Cand) : List Cand → List Cand
  | [] => [c]
  | d :: ds => if d.score < c.score then c :: d :: ds else d :: insertDesc c ds

/-- Descending sort by score, the model of the sort performed inside
`llama_sample_top_k`. -/
def sortDesc (cs : List Cand) : List Cand := cs.foldr insertDesc []

/-- Modelled from the spec: `llama_sample_top_k` (stage 2 of section 4.2) —
sort descending and keep the `k` best, where `k ≤ 0` means keep all and at
least `minKeep` survive. -/
def topKFilter (k : Int) (minKeep : Nat) (cs : List Cand) : List Cand :=
  let kNat : Nat := if k ≤ 0 then cs.length else k.toNat
  (sortDesc cs).take (min (max kNat minKeep) cs.length)

/-- Index (1-based count) of the shortest prefix whose cumulative
probability reaches `p`, keeping at least `minKeep` entries. -/
def cumKeep (p : ℚ) (minKeep : Nat) : List ℚ → ℚ → Nat → Option Nat
  | [], _, _ => none
  | q :: qs, acc, i =>
    if p ≤ acc + q ∧ minKeep ≤ i + 1 then some (i + 1)
    else cumKeep p minKeep qs (acc + q) (i + 1)

/-- Modelled from the spec: `llama_sample_top_p` (stage 3 of section 4.2) —
an immediate no-op when `p ≥ 1`, otherwise convert the (already sorted)
scores to probabilities and keep the smallest prefix whose cumulative mass
reaches `p`. -/
def topPFilter (w : ℚ → ℚ) (p : ℚ) (minKeep : Nat) (cs : List Cand) :
    List Cand :=
  if 1 ≤ p then cs
  else
    let total := (cs.map (fun c => w c.score)).sum
    let probs := cs.map (fun c => w c.score / total)
    cs.take ((cumKeep p minKeep probs 0 0).getD cs.length)

/-- Modelled from the spec: `llama_sample_temp` (stage 4 of section 4.2) —
divide every score by the temperature. -/
def tempScale (t : ℚ) (cs : List Cand) : List Cand :=
  cs.map (fun c => ⟨c.token, c.score / t⟩)

/-- Cumulative walk of the stochastic draw: first index whose cumulative
probability exceeds `r`. -/
def pickIdx (r : ℚ) : List ℚ → ℚ → Nat → Nat
  | [], _, i => i
  | q :: qs, acc, i => if r < acc + q then i else pickIdx r qs (acc + q) (i + 1)

/-- Modelled from the spec: `llama_sample_token` (stage 5 of section 4.2) —
softmax over the surviving candidates and one stochastic draw driven by
`r`. -/
def sampleDraw (w : ℚ → ℚ) (r : ℚ) (cs : List Cand) : Int :=
  let total := (cs.map (fun c => w c.score)).sum
  let probs := cs.map (fun c => w c.score / total)
  (cs.getD (pickIdx r probs 0 0) ⟨0, 0⟩).token

/-- The candidate array after the guarded penalty stage
(llama-chat.cpp:158-173): penalties run only when `repeatPenaltyTokens` is
non-empty. -/
def penalizedCands (p : SamplingParams) (logits : List ℚ) : List Cand :=
  if p.repeatPenaltyTokens = [] then initCands logits
  else applyPenalties p.repeatPenaltyTokens p.repeatPenalty p.frequencyPenalty
    p.presencePenalty (initCands logits)

/-- Model of `LlamaChat::Impl::SampleToken` (llama-chat.cpp:141-179): penalties are
applied only when `repeatPenaltyTokens` is non-empty, then top-k, top-p and
temperature run with `min_keep = 1`, and one token is drawn. -/
def SampleToken (w : ℚ → ℚ) (r : ℚ) (logits : List ℚ) (p : SamplingParams) :
    Int :=
  let cands1 := penalizedCands p logits
  let cands2 := topKFilter p.topK 1 cands1
  let cands3 := topPFilter w p.topP 1 cands2
  let cands4 := tempScale p.temperature cands3
  sampleDraw w r cands4

end LlamaChat

/-! ## Stop-marker detector of `src/llama-wrapper.cpp` -/

namespace LlamaWrapper

/-- The configured stop markers (llama-wrapper.cpp:144-149). -/
def userMarker : Str := "\nUser:".data

def assistantMarker : Str := "\nAssistant:".data

/-- Result of one stop-check step: the accumulated text afterwards, the
`stopGeneration` flag, and the fragment forwarded to the callback, if any. -/
structure StepResult where
  text : Str
  stop : Bool
  emitted : Option Str
deriving DecidableEq, Repr

/-- The stop-condition block of `LlamaWrapper::Impl::RunQueryStream`
(llama-wrapper.cpp:141-156): append the piece to the accumulated text; when
either marker occurs anywhere in it, truncate at the position of `"\nUser:"`
when present and of `"\nAssistant:"` otherwise, signal stop, and do not
forward the piece; otherwise forward the piece. -/
def stopCheck (generatedText piece : Str) : StepResult :=
  let g := generatedText ++ piece
  if containsSub g userMarker || containsSub g assistantMarker then
    let pos :=
      match findSub g userMarker with
      | some p => p
      | none => (findSub g assistantMarker).getD 0
    ⟨g.take pos, true, none⟩
  else ⟨g, false, some piece⟩

/-- The accumulation of the wrapper decode loop restricted to its text flow
(llama-wrapper.cpp:125-166): feed decoded pieces one at a time through
`stopCheck`, collecting the forwarded fragments, until a stop is signalled
or the pieces run out. -/
def scanPieces (acc : Str) : List Str → Str × Bool × List Str
  | [] => (acc, false, [])
  | p :: ps =>
    let r := stopCheck acc p
    if r.stop then (r.text, true, [])
    else
      let rest := scanPieces r.text ps
      (rest.1, rest.2.1, p :: rest.2.2)

end LlamaWrapper

/-! ## Remaining definitions: conversation operations and concrete inputs -/

/-- Concatenation of a fragment sequence. -/
def concatStr (ps : List Str) : Str := ps.foldr (· ++ ·) []

namespace LlamaChat

/-- The public operations that mutate `conversationHistory`
(llama-chat.cpp:96, 104-109, 232). -/
inductive ChatOp
  | setSystem (s : Str)
  | addUser (s : Str)
  | addAssistant (s : Str)
  | reset

/-- Effect of one public operation on the history. -/
def applyOp (h : List Message) : ChatOp → List Message
  | .setSystem s => SetSystemPrompt h s
  | .addUser s => AddUserMessage h s
  | .addAssistant s => h ++ [⟨"assistant".data, s⟩]
  | .reset => ResetConversation h

/-- Histories reachable from the freshly constructed (empty) state. -/
def runOps (ops : List ChatOp) : List Message := ops.foldl applyOp []

def isSystem (m : Message) : Bool := m.role == "system".data

/-- At most one system turn, and any system turn sits at index 0. -/
def SysInv (h : List Message) : Prop :=
  (h.filter isSystem).length ≤ 1 ∧
  ∀ i m, h.get? i = some m → isSystem m = true → i = 0

/-- Default-style sampling parameters with every stage at its neutral value
and a max-tokens budget of 4. -/
def pDefault : SamplingParams := ⟨4, 1, 0, 1, 1, 0, 0, []⟩

/-- An invalid configuration: negative temperature, top-p outside (0,1]. -/
def pInvalid : SamplingParams := ⟨4, -1, 0, 2, 1, 0, 0, []⟩

/-- Neutral configuration with a non-empty penalty window and every penalty
weight at its no-op value (repetition 1, frequency 0, presence 0). -/
def pNeutralPenalties : SamplingParams := ⟨4, 1, 0, 1, 1, 0, 0, [1]⟩

/-- Neutral stages except `topK = 1`, with non-neutral temperature and
top-p, to exercise the top-k collapse. -/
def pTopK1 : SamplingParams := ⟨5, 2, 1, 1/2, 1, 0, 0, []⟩

/-- Budget of 3 tokens, neutral stages. -/
def pMax3 : SamplingParams := ⟨3, 1, 0, 1, 1, 0, 0, []⟩

/-- Budget of 2 tokens, below the 3-token prompt of `engPrompt3`. -/
def pMax2 : SamplingParams := ⟨2, 1, 0, 1, 1, 0, 0, []⟩

/-- Engine whose tokenizer reports 3 tokens and whose decode always fails. -/
def engPrefillOnly : Engine :=
  ⟨fun _ => (3, [1, 2, 3]), fun _ => false, fun _ => 7, fun _ => [], 99⟩

/-- Engine for the spec's partial-failure scenario: a 2-token prompt, the
pieces "Hel" and "lo", and a third `llama_decode` call (index 2) that
fails. -/
def engFailThird : Engine :=
  ⟨fun _ => (2, [10, 11]),
   fun i => decide (i < 2),
   fun n => if n = 2 then 5 else if n = 3 then 6 else 7,
   fun t => if t = 5 then "Hel".data else if t = 6 then "lo".data else "x".data,
   99⟩

/-- Engine whose tokenizer fails (reports a negative count). -/
def engBadTokenizer : Engine :=
  ⟨fun _ => (-1, []), fun _ => false, fun _ => 7, fun _ => [], 99⟩

/-- Engine that first decodes a special-token rendering and then an ordinary
piece "hello". -/
def engSpecialPiece : Engine :=
  ⟨fun _ => (1, [7]),
   fun _ => true,
   fun n => if n = 1 then 5 else 6,
   fun t => if t = 5 then "<|end_header_id|>".data else "hello".data,
   99⟩

/-- Engine with a 3-token prompt and always-successful decodes. -/
def engPrompt3 : Engine :=
  ⟨fun _ => (3, [1, 2, 3]), fun _ => true, fun _ => 7, fun _ => "z".data, 99⟩

end LlamaChat

/-- Fragment sequence whose concatenation contains `"\nUser:"` split across
the last two fragments. -/
def piecesSplitMarker : List Str :=
  ["Hi there".data, " bye\nUs".data, "er: more".data]

/-! ## Helper lemmas about the generation loop -/

namespace LlamaChat

theorem stepEmit_nCur (st : LoopState) (cur : Str) :
    (stepEmit st cur).nCur = st.nCur := by
  unfold stepEmit; split <;> rfl

theorem stepEmit_callIdx (st : LoopState) (cur : Str) :
    (stepEmit st cur).callIdx = st.callIdx := by
  unfold stepEmit; split <;> rfl

theorem stepEmit_batches (st : LoopState) (cur : Str) :
    (stepEmit st cur).batches = st.batches := by
  unfold stepEmit; split <;> rfl

theorem stepEmit_resp (st : LoopState) (cur : Str) :
    (stepEmit st cur).resp = st.resp ∨ (stepEmit st cur).resp = st.resp ++ cur := by
  unfold stepEmit; split
  · exact Or.inr rfl
  · exact Or.inl rfl

theorem stepEmit_emitted_le (st : LoopState) (cur : Str) :
    (stepEmit st cur).emitted.length ≤ st.emitted.length + 1 := by
  unfold stepEmit; split <;> simp

/-- A pending buffer that already contains a special-token rendering is
never emitted: the step keeps everything unchanged except the buffer. -/
theorem stepEmit_special (st : LoopState) (cur : Str)
    (h : IsSpecialToken cur = true) :
    stepEmit st cur = ⟨st.nCur, st.callIdx, st.resp, cur, st.emitted, st.batches⟩ := by
  unfold stepEmit
  rw [if_neg]
  intro hc
  exact hc.1 h

/-- When the cursor already reached the budget, the loop exits at once. -/
theorem decodeLoop_exit (eng : Engine) (M fuel : Nat) (st : LoopState)
    (h : M ≤ st.nCur) :
    decodeLoop eng M fuel st = ⟨st.emitted, .ok st.resp, st.batches⟩ := by
  cases fuel with
  | zero => rfl
  | succ n => simp [decodeLoop, Nat.not_lt.mpr h]

/-- Shape of everything the decode loop adds to the state: the submitted
batches are one-token batches at consecutive positions starting at the
entry cursor, their number is bounded by the remaining budget, and at most
one fragment is emitted per decode step. -/
theorem decodeLoop_spec (eng : Engine) (M : Nat) :
    ∀ fuel st, ∃ ts : List Int,
      (decodeLoop eng M fuel st).batches = st.batches ++ loopBatches st.nCur ts ∧
      ts.length ≤ M - st.nCur ∧
      (decodeLoop eng M fuel st).emitted.length ≤ st.emitted.length + ts.length := by
  intro fuel
  induction fuel with
  | zero =>
    intro st
    exact ⟨[], by simp [decodeLoop, loopBatches], by simp, by simp [decodeLoop]⟩
  | succ n ih =>
    intro st
    by_cases hlt : st.nCur < M
    · by_cases heot : eng.sample st.nCur = eng.eot
      · refine ⟨[], ?_, by simp, ?_⟩
        · simp [decodeLoop, hlt, heot, loopBatches]
        · simp [decodeLoop, hlt, heot]
      · have hstep :
            decodeLoop eng M (n + 1) st =
              (if eng.decodeOk st.callIdx then
                decodeLoop eng M n
                  ⟨st.nCur + 1, st.callIdx + 1,
                   (stepEmit st (st.cur ++ eng.pieceOf (eng.sample st.nCur))).resp,
                   (stepEmit st (st.cur ++ eng.pieceOf (eng.sample st.nCur))).cur,
                   (stepEmit st (st.cur ++ eng.pieceOf (eng.sample st.nCur))).emitted,
                   (stepEmit st (st.cur ++ eng.pieceOf (eng.sample st.nCur))).batches ++
                     [[⟨eng.sample st.nCur, st.nCur, true⟩]]⟩
              else
                ⟨(stepEmit st (st.cur ++ eng.pieceOf (eng.sample st.nCur))).emitted,
                 .engineError,
                 (stepEmit st (st.cur ++ eng.pieceOf (eng.sample st.nCur))).batches ++
                   [[⟨eng.sample st.nCur, st.nCur, true⟩]]⟩) := by
          simp [decodeLoop, hlt, heot]
      -- shared facts about the stepped state
        by_cases hdec : eng.decodeOk st.callIdx = true
        · rw [hstep, if_pos hdec]
          obtain ⟨ts', hb, hlen, hem⟩ := ih
            ⟨st.nCur + 1, st.callIdx + 1,
             (stepEmit st (st.cur ++ eng.pieceOf (eng.sample st.nCur))).resp,
             (stepEmit st (st.cur ++ eng.pieceOf (eng.sample st.nCur))).cur,
             (stepEmit st (st.cur ++ eng.pieceOf (eng.sample st.nCur))).emitted,
             (stepEmit st (st.cur ++ eng.pieceOf (eng.sample st.nCur))).batches ++
               [[⟨eng.sample st.nCur, st.nCur, true⟩]]⟩
          dsimp only at hb hlen hem
          refine ⟨eng.sample st.nCur :: ts', ?_, ?_, ?_⟩
          · rw [hb, stepEmit_batches]
            simp [loopBatches, List.append_assoc]
          · simp only [List.length_cons]
            omega
          · have hle := stepEmit_emitted_le st (st.cur ++ eng.pieceOf (eng.sample st.nCur))
            simp only [List.length_cons]
            omega
        · rw [hstep, if_neg hdec]
          refine ⟨[eng.sample st.nCur], ?_, ?_, ?_⟩
          · dsimp only
            rw [stepEmit_batches]
            simp [loopBatches]
          · simp only [List.length_singleton]
            omega
          · have hle := stepEmit_emitted_le st (st.cur ++ eng.pieceOf (eng.sample st.nCur))
            simp only [List.length_singleton]
            omega
    · refine ⟨[], ?_, by simp, ?_⟩
      · simp [decodeLoop, hlt, loopBatches]
      · simp [decodeLoop, hlt]

end LlamaChat

namespace LlamaChat

/-- The first batch submitted to `llama_decode` is always the prefill batch
built from the tokenized prompt. -/
theorem RunQueryStream_batches_head (eng : Engine) (p : SamplingParams)
    (hist : List Message) :
    (RunQueryStream eng p hist).batches.head? =
      some (prefillBatch 0 (Encode eng (BuildPrompt hist))) := by
  unfold RunQueryStream
  by_cases hd : eng.decodeOk 0 = true
  · simp only [hd, if_true]
    obtain ⟨ts, hb, -, -⟩ := decodeLoop_spec eng p.maxTokens p.maxTokens
      ⟨(Encode eng (BuildPrompt hist)).length, 1, [], [], [],
       [prefillBatch 0 (Encode eng (BuildPrompt hist))]⟩
    cases hst : (decodeLoop eng p.maxTokens p.maxTokens
        ⟨(Encode eng (BuildPrompt hist)).length, 1, [], [], [],
         [prefillBatch 0 (Encode eng (BuildPrompt hist))]⟩).status with
    | ok resp => simp only [hst]; rw [hb]; rfl
    | engineError => simp only [hst]; rw [hb]; rfl
  · simp only [hd]
    rfl

/-- The history after one `RunQueryStream` call is either unchanged or the
input history with one assistant turn appended. -/
theorem RunQueryStream_history_cases (eng : Engine) (p : SamplingParams)
    (hist : List Message) :
    (RunQueryStream eng p hist).history = hist ∨
      ∃ s, (RunQueryStream eng p hist).history = hist ++ [⟨"assistant".data, s⟩] := by
  unfold RunQueryStream
  by_cases hd : eng.decodeOk 0 = true
  · simp only [hd, if_true]
    cases hst : (decodeLoop eng p.maxTokens p.maxTokens
        ⟨(Encode eng (BuildPrompt hist)).length, 1, [], [], [],
         [prefillBatch 0 (Encode eng (BuildPrompt hist))]⟩).status with
    | ok resp => exact Or.inr ⟨resp, by simp only [hst]⟩
    | engineError => exact Or.inl (by simp only [hst])
  · simp only [hd]
    exact Or.inl rfl

/-- When a `RunQueryStream` call ends in a thrown engine error, the
`push_back` of the assistant turn is skipped and the history is exactly the
input history. -/
theorem RunQueryStream_failed_history (eng : Engine) (p : SamplingParams)
    (hist : List Message)
    (h : (RunQueryStream eng p hist).failed = true) :
    (RunQueryStream eng p hist).history = hist := by
  unfold RunQueryStream at h ⊢
  by_cases hd : eng.decodeOk 0 = true
  · simp only [hd, if_true] at h ⊢
    cases hst : (decodeLoop eng p.maxTokens p.maxTokens
        ⟨(Encode eng (BuildPrompt hist)).length, 1, [], [], [],
         [prefillBatch 0 (Encode eng (BuildPrompt hist))]⟩).status with
    | ok resp => rw [hst] at h; simp at h
    | engineError => simp only [hst]
  · simp [hd]

end LlamaChat

/-! ## Claim theorems -/

open LlamaChat LlamaWrapper

/-- C1.  Counter-evidence for the claim that the prefill phase sets the
evaluate-logits flag for the final prompt position: in
`LlamaChat::Impl::RunQueryStream` every prompt token is added with the flag
`false` — including the last one — and `batch.logits` is never touched
afterwards (unlike `main.cpp:37`, which sets it for the final position).
The first batch submitted to the engine is the prefill batch and all of its
entries carry `logits = false`. -/
theorem prefill_logits_flag_all_false :
    (RunQueryStream engPrefillOnly pDefault []).batches =
      [[⟨1, 0, false⟩, ⟨2, 1, false⟩, ⟨3, 2, false⟩]] ∧
    ∀ eng p hist,
      (RunQueryStream eng p hist).batches.head? =
        some (prefillBatch 0 (Encode eng (BuildPrompt hist))) ∧
      (prefillBatch 0 (Encode eng (BuildPrompt hist))).all
        (fun b => !b.logits) = true := by
  refine ⟨by decide, fun eng p hist => ⟨RunQueryStream_batches_head eng p hist, ?_⟩⟩
  generalize Encode eng (BuildPrompt hist) = toks
  have hall : ∀ (i : Nat) (ts : List Int),
      (prefillBatch i ts).all (fun b => !b.logits) = true := by
    intro i ts
    induction ts generalizing i with
    | nil => rfl
    | cons t ts ihts => simp [prefillBatch, ihts]
  exact hall 0 toks

/-- C2.  When the engine's forward pass fails mid-generation, the thrown
error surfaces (`failed = true`), the fragments already delivered to the
callback stand as the partial result, and the conversation history holds
only the pending user turn — no assistant turn is appended, so a retry
reuses the same prompt. -/
theorem engine_failure_no_assistant_turn (eng : Engine) (msg : Str)
    (p : SamplingParams) (hist : List Message)
    (h : (Prompt eng msg p hist).failed = true) :
    (Prompt eng msg p hist).history = AddUserMessage hist msg := by
  unfold Prompt at h ⊢
  exact RunQueryStream_failed_history eng p (AddUserMessage hist msg) h

/-- Witness for C2, the spec's scenario: the third `llama_decode` call fails
after the fragments "Hel" and "lo" were streamed; the call fails, the
partial fragments stand, and the history holds exactly the user turn. -/
theorem engine_failure_no_assistant_turn_witness :
    (Prompt engFailThird "2+2?".data pDefault []).failed = true ∧
    (Prompt engFailThird "2+2?".data pDefault []).emitted =
      ["Hel".data, "lo".data] ∧
    (Prompt engFailThird "2+2?".data pDefault []).history =
      AddUserMessage [] "2+2?".data :=
  ⟨by decide, by decide,
   engine_failure_no_assistant_turn engFailThird "2+2?".data pDefault [] (by decide)⟩

/-- C3 counterexample.  The claim says a tokenization failure leaves
Conversation State unmutated with no user turn added; on the code, `Prompt`
appends the user turn before tokenization even runs, so with an engine whose
tokenizer reports a negative count the history still gains the user turn. -/
theorem tokenization_failure_adds_user_turn :
    (engBadTokenizer.tokenizeRaw (BuildPrompt (AddUserMessage [] "hi".data))).1 < 0 ∧
    (Prompt engBadTokenizer "hi".data pDefault []).history =
      [⟨"user".data, "hi".data⟩] :=
  ⟨by decide, by decide⟩

/-- C3 amended.  When tokenization of the rendered prompt fails, `Encode`
swallows the error and returns an empty token list, no `TokenizationError`
is raised — the user turn has already been appended to the history — and
generation proceeds to submit an empty prefill batch to the engine. -/
theorem tokenization_failure_swallowed (eng : Engine) (msg : Str)
    (p : SamplingParams) (hist : List Message)
    (h : (eng.tokenizeRaw (BuildPrompt (AddUserMessage hist msg))).1 < 0) :
    Encode eng (BuildPrompt (AddUserMessage hist msg)) = [] ∧
    (Prompt eng msg p hist).batches.head? = some [] ∧
    ∃ rest, (Prompt eng msg p hist).history =
      hist ++ ⟨"user".data, msg⟩ :: rest := by
  have hEnc : Encode eng (BuildPrompt (AddUserMessage hist msg)) = [] := by
    unfold Encode
    rw [if_pos h]
  refine ⟨hEnc, ?_, ?_⟩
  · have := RunQueryStream_batches_head eng p (AddUserMessage hist msg)
    rw [hEnc] at this
    exact this
  · have hP : (Prompt eng msg p hist).history =
        (RunQueryStream eng p (AddUserMessage hist msg)).history := rfl
    rcases RunQueryStream_history_cases eng p (AddUserMessage hist msg) with hc | ⟨s, hc⟩
    · refine ⟨[], ?_⟩
      rw [hP, hc]
      simp [AddUserMessage]
    · refine ⟨[⟨"assistant".data, s⟩], ?_⟩
      rw [hP, hc]
      simp [AddUserMessage]

/-- Witness for the amended C3 at a concrete failing tokenizer. -/
theorem tokenization_failure_swallowed_witness :
    Encode engBadTokenizer (BuildPrompt (AddUserMessage [] "hi".data)) = [] ∧
    (Prompt engBadTokenizer "hi".data pDefault []).batches.head? = some [] ∧
    ∃ rest, (Prompt engBadTokenizer "hi".data pDefault []).history =
      [] ++ ⟨"user".data, "hi".data⟩ :: rest :=
  tokenization_failure_swallowed engBadTokenizer "hi".data pDefault [] (by decide)

/-- C8 counterexample.  The claim says an invalid SamplingConfig is rejected
with a ConfigurationError before any engine call; on the code no validation
exists: with a negative temperature and top-p above 1 the call still
tokenizes and submits the prefill batch to `llama_decode`. -/
theorem invalid_config_still_calls_engine :
    pInvalid.temperature < 0 ∧ 1 < pInvalid.topP ∧
    (Prompt engPrefillOnly "q".data pInvalid []).batches ≠ [] :=
  ⟨by decide, by decide, by decide⟩

/-- C8 amended.  `SamplingParams` is never validated: for every
configuration, valid or not, the call reaches the engine — the first
`llama_decode` call is always the prefill batch of the tokenized prompt,
and the configuration fields are passed through to the sampling stages
unchecked. -/
theorem no_config_validation (eng : Engine) (msg : Str) (p : SamplingParams)
    (hist : List Message) :
    (Prompt eng msg p hist).batches.head? =
      some (prefillBatch 0 (Encode eng (BuildPrompt (AddUserMessage hist msg)))) :=
  RunQueryStream_batches_head eng p (AddUserMessage hist msg)

/-- C10 amended.  The decode loop's work is bounded: the batches submitted
after the prefill are one-token batches at consecutive positions starting
at the prompt token count, their number is at most
`maxTokens - promptTokens` (truncated subtraction), and the emitted
fragments never exceed the decode steps.  A prompt exactly at the budget
yields zero fragments and an appended assistant turn with empty content;
a prompt strictly above the budget instead overflows the prefill batch
allocated by `llama_batch_init(params.maxTokens, 0, 1)` before the loop is
reached, leaving the cleanly modelled fragment of the program. -/
theorem generation_bounded_steps (eng : Engine) (p : SamplingParams)
    (hist : List Message) :
    (∃ ts : List Int,
      (RunQueryStream eng p hist).batches =
        prefillBatch 0 (Encode eng (BuildPrompt hist)) ::
          loopBatches (Encode eng (BuildPrompt hist)).length ts ∧
      ts.length ≤ p.maxTokens - (Encode eng (BuildPrompt hist)).length ∧
      (RunQueryStream eng p hist).emitted.length ≤ ts.length) ∧
    (p.maxTokens = (Encode eng (BuildPrompt hist)).length →
      eng.decodeOk 0 = true →
      (RunQueryStream eng p hist).emitted = [] ∧
      (RunQueryStream eng p hist).history = hist ++ [⟨"assistant".data, []⟩]) ∧
    (p.maxTokens < (Encode eng (BuildPrompt hist)).length →
      prefillOverflow eng p hist = true) := by
  refine ⟨?_, ?_, ?_⟩
  · unfold RunQueryStream
    by_cases hd : eng.decodeOk 0 = true
    · simp only [hd, if_true]
      obtain ⟨ts, hb, hlen, hem⟩ := decodeLoop_spec eng p.maxTokens p.maxTokens
        ⟨(Encode eng (BuildPrompt hist)).length, 1, [], [], [],
         [prefillBatch 0 (Encode eng (BuildPrompt hist))]⟩
      dsimp only at hb hlen hem
      refine ⟨ts, ?_⟩
      cases hst : (decodeLoop eng p.maxTokens p.maxTokens
          ⟨(Encode eng (BuildPrompt hist)).length, 1, [], [], [],
           [prefillBatch 0 (Encode eng (BuildPrompt hist))]⟩).status with
      | ok resp =>
        simp only [hst]
        refine ⟨by rw [hb]; simp, hlen, by simpa using hem⟩
      | engineError =>
        simp only [hst]
        refine ⟨by rw [hb]; simp, hlen, by simpa using hem⟩
    · simp only [hd, if_false]
      exact ⟨[], by simp [loopBatches], by simp, by simp⟩
  · intro hM hd
    unfold RunQueryStream
    simp only [hd, if_true]
    rw [decodeLoop_exit eng p.maxTokens p.maxTokens _ (le_of_eq hM)]
    exact ⟨rfl, rfl⟩
  · intro hlt
    unfold prefillOverflow
    exact decide_eq_true hlt

/-- Witness for C10: a 3-token prompt against a budget of exactly 3 yields
zero fragments and an empty-content assistant turn. -/
theorem generation_bounded_steps_witness :
    (RunQueryStream engPrompt3 pMax3 []).emitted = [] ∧
    (RunQueryStream engPrompt3 pMax3 []).history =
      [] ++ [⟨"assistant".data, []⟩] :=
  (generation_bounded_steps engPrompt3 pMax3 []).2.1 (by decide) (by decide)

/-- C10 counterexample.  The claim asserts that a prompt token count
strictly above the max-tokens budget still ends with zero fragments and an
appended empty assistant turn; on the code that execution never reaches the
decode loop cleanly: the prefill performs 3 `llama_batch_add` writes into
the batch allocated for only `maxTokens = 2` entries by
`llama_batch_init(params.maxTokens, 0, 1)` (llama-chat.cpp:195), writing
past the allocation. -/
theorem over_budget_prompt_overflows_prefill :
    pMax2.maxTokens < (Encode engPrompt3 (BuildPrompt [])).length ∧
    (prefillBatch 0 (Encode engPrompt3 (BuildPrompt []))).length = 3 ∧
    pMax2.maxTokens = 2 ∧
    prefillOverflow engPrompt3 pMax2 [] = true :=
  ⟨by decide, by decide, by decide, by decide⟩

/-- Conversation histories never have more than one system turn. -/
theorem SysInv_nil : SysInv [] :=
  ⟨by simp, fun i m hm _ => by simp at hm⟩

theorem SysInv_append_nonsystem (h : List Message) (msg : Message)
    (hm' : isSystem msg = false) (hi : SysInv h) : SysInv (h ++ [msg]) := by
  obtain ⟨h1, h2⟩ := hi
  constructor
  · rw [List.filter_append]
    have : List.filter isSystem [msg] = [] := by
      simp [List.filter, hm']
    rw [this, List.append_nil]
    exact h1
  · intro i m hm hsys
    by_cases hlt : i < h.length
    · rw [List.get?_append hlt] at hm
      exact h2 i m hm hsys
    · have hge : h.length ≤ i := Nat.not_lt.mp hlt
      rw [List.get?_append_right hge] at hm
      cases hk : i - h.length with
      | zero =>
        rw [hk] at hm
        simp at hm
        simp [hm, hsys] at hm'
      | succ k =>
        rw [hk] at hm
        simp at hm

theorem SysInv_applyOp (h : List Message) (op : ChatOp) (hi : SysInv h) :
    SysInv (applyOp h op) := by
  cases op with
  | setSystem s =>
    have hsys : isSystem ⟨"system".data, s⟩ = true := rfl
    refine ⟨by simp [applyOp, SetSystemPrompt, List.filter, hsys], ?_⟩
    intro i m hm _
    cases i with
    | zero => rfl
    | succ k => simp [applyOp, SetSystemPrompt] at hm
  | addUser s =>
    exact SysInv_append_nonsystem h ⟨"user".data, s⟩ rfl hi
  | addAssistant s =>
    exact SysInv_append_nonsystem h ⟨"assistant".data, s⟩ rfl hi
  | reset =>
    exact ⟨by simp [applyOp, ResetConversation], fun i m hm _ => by
      simp [applyOp, ResetConversation] at hm⟩

theorem foldl_applyOp_SysInv :
    ∀ (ops : List ChatOp) (h : List Message), SysInv h →
      SysInv (List.foldl applyOp h ops) := by
  intro ops
  induction ops with
  | nil => intro h hi; exact hi
  | cons op ops ih =>
    intro h hi
    exact ih (applyOp h op) (SysInv_applyOp h op hi)

/-- C9.  Every history reachable through the public operations keeps at most
one system turn, always at index 0; `SetSystemPrompt` mid-conversation
discards all prior turns and leaves exactly the one system turn; and a
`Prompt` call only ever extends the history by the pending user turn and
possibly one assistant turn, so generation preserves the invariant. -/
theorem system_turn_unique_and_first :
    (∀ ops : List ChatOp, SysInv (runOps ops)) ∧
    (∀ (h : List Message) (s : Str), SetSystemPrompt h s = [⟨"system".data, s⟩]) ∧
    (∀ (eng : Engine) (msg : Str) (p : SamplingParams) (hist : List Message),
      (Prompt eng msg p hist).history = AddUserMessage hist msg ∨
      ∃ s, (Prompt eng msg p hist).history =
        AddUserMessage hist msg ++ [⟨"assistant".data, s⟩]) :=
  ⟨fun ops => foldl_applyOp_SysInv ops [] SysInv_nil,
   fun _ _ => rfl,
   fun eng msg p hist => RunQueryStream_history_cases eng p (AddUserMessage hist msg)⟩

/-- A special-token occurrence survives appending more text. -/
theorem IsSpecialToken_append (s t : Str) (h : IsSpecialToken s = true) :
    IsSpecialToken (s ++ t) = true := by
  unfold IsSpecialToken at h ⊢
  rw [List.any_eq_true] at h ⊢
  obtain ⟨pat, hmem, hc⟩ := h
  exact ⟨pat, hmem, containsSub_append s t pat hc⟩

/-- C6 amended.  A fragment containing a special-token rendering is indeed
suppressed and generation keeps running, but the suppressed text stays in
the pending buffer: every later fragment is appended to that still-special
buffer, so once the buffer is special no further fragment is ever emitted
and the accumulated assistant text stops growing. -/
theorem special_suppression_sticky (eng : Engine) (M : Nat) :
    ∀ (fuel : Nat) (st : LoopState), IsSpecialToken st.cur = true →
      (decodeLoop eng M fuel st).emitted = st.emitted ∧
      ∀ s, (decodeLoop eng M fuel st).status = .ok s → s = st.resp := by
  intro fuel
  induction fuel with
  | zero =>
    intro st h
    exact ⟨rfl, fun s hs => by cases hs; rfl⟩
  | succ n ih =>
    intro st h
    by_cases hlt : st.nCur < M
    · by_cases heot : eng.sample st.nCur = eng.eot
      · refine ⟨by simp [decodeLoop, hlt, heot], ?_⟩
        intro s hs
        simp only [decodeLoop, hlt, if_true, heot, ite_true] at hs
        cases hs
        rfl
      · have hcur : IsSpecialToken (st.cur ++ eng.pieceOf (eng.sample st.nCur)) = true :=
          IsSpecialToken_append _ _ h
        have hse := stepEmit_special st (st.cur ++ eng.pieceOf (eng.sample st.nCur)) hcur
        by_cases hdec : eng.decodeOk st.callIdx = true
        · have hunf : decodeLoop eng M (n + 1) st =
              decodeLoop eng M n
                ⟨st.nCur + 1, st.callIdx + 1, st.resp,
                 st.cur ++ eng.pieceOf (eng.sample st.nCur), st.emitted,
                 st.batches ++ [[⟨eng.sample st.nCur, st.nCur, true⟩]]⟩ := by
            simp [decodeLoop, hlt, heot, hdec, hse]
          rw [hunf]
          exact ih _ hcur
        · have hunf : decodeLoop eng M (n + 1) st =
              ⟨st.emitted, .engineError,
               st.batches ++ [[⟨eng.sample st.nCur, st.nCur, true⟩]]⟩ := by
            simp [decodeLoop, hlt, heot, hdec, hse]
          rw [hunf]
          exact ⟨rfl, fun s hs => by cases hs⟩
    · refine ⟨by simp [decodeLoop, hlt], ?_⟩
      intro s hs
      simp only [decodeLoop, hlt, ite_false] at hs
      cases hs
      rfl

/-- Witness for the amended C6: from a pending buffer holding a special
rendering, two further decode steps emit nothing and leave the accumulated
text unchanged. -/
theorem special_suppression_sticky_witness :
    IsSpecialToken "<|eot_id|>x".data = true ∧
    (decodeLoop engSpecialPiece 3 2
        ⟨1, 1, "y".data, "<|eot_id|>x".data, [], []⟩).emitted = [] ∧
    ∀ s, (decodeLoop engSpecialPiece 3 2
        ⟨1, 1, "y".data, "<|eot_id|>x".data, [], []⟩).status = .ok s →
      s = "y".data :=
  ⟨by decide,
   (special_suppression_sticky engSpecialPiece 3 2
     ⟨1, 1, "y".data, "<|eot_id|>x".data, [], []⟩ (by decide)).1,
   (special_suppression_sticky engSpecialPiece 3 2
     ⟨1, 1, "y".data, "<|eot_id|>x".data, [], []⟩ (by decide)).2⟩

/-- C6 counterexample.  The claim says that after a suppressed special
fragment, subsequent non-special fragments are still emitted; on the code
they are not: the engine decodes a special rendering and then the ordinary
piece "hello", generation runs to its budget without stopping or failing,
yet nothing at all is emitted and the assistant turn is empty. -/
theorem special_piece_blocks_later_output :
    engSpecialPiece.pieceOf 6 = "hello".data ∧
    IsSpecialToken "hello".data = false ∧
    IsSpecialToken (engSpecialPiece.pieceOf 5) = true ∧
    (Prompt engSpecialPiece "q".data pMax3 []).emitted = [] ∧
    (Prompt engSpecialPiece "q".data pMax3 []).failed = false ∧
    (Prompt engSpecialPiece "q".data pMax3 []).history =
      [⟨"user".data, "q".data⟩, ⟨"assistant".data, []⟩] :=
  ⟨rfl, by decide, by decide, by decide, by decide, by decide⟩

theorem concatStr_nil : concatStr [] = [] := rfl

theorem concatStr_cons (p : Str) (ps : List Str) :
    concatStr (p :: ps) = p ++ concatStr ps := rfl

/-- When no marker occurs in the extended text, the step forwards the piece
and keeps scanning. -/
theorem stopCheck_nostop (a p : Str)
    (h : (containsSub (a ++ p) userMarker ||
          containsSub (a ++ p) assistantMarker) = false) :
    stopCheck a p = ⟨a ++ p, false, some p⟩ := by
  unfold stopCheck
  simp [h]

/-- When a marker occurs in the extended text, the step signals stop,
forwards nothing, and truncates exactly at the start of an occurrence of a
configured marker. -/
theorem stopCheck_trigger (a p : Str)
    (h : (containsSub (a ++ p) userMarker ||
          containsSub (a ++ p) assistantMarker) = true) :
    ∃ i, (isPrefOf userMarker ((a ++ p).drop i) = true ∨
          isPrefOf assistantMarker ((a ++ p).drop i) = true) ∧
      stopCheck a p = ⟨(a ++ p).take i, true, none⟩ := by
  unfold stopCheck
  rw [if_pos h]
  cases hfu : findSub (a ++ p) userMarker with
  | some j =>
    refine ⟨j, Or.inl (findSub_some _ _ _ hfu).2, ?_⟩
    rfl
  | none =>
    have hcu : containsSub (a ++ p) userMarker = false := by
      rw [containsSub, hfu]; rfl
    rw [hcu] at h
    simp only [Bool.false_or] at h
    rw [containsSub] at h
    cases hfa : findSub (a ++ p) assistantMarker with
    | some j =>
      refine ⟨j, Or.inr (findSub_some _ _ _ hfa).2, ?_⟩
      rfl
    | none =>
      rw [hfa] at h
      simp at h

/-- Main scan invariant: starting from marker-free accumulated text, as soon
as the concatenation of the remaining pieces completes a marker, the scan
stops at the first triggering piece `t`: exactly the pieces before it were
forwarded, and the final text is the scanned text truncated at the start of
a marker occurrence. -/
theorem scanPieces_trigger :
    ∀ (ps : List Str) (acc : Str),
      containsSub acc userMarker = false →
      containsSub acc assistantMarker = false →
      (containsSub (acc ++ concatStr ps) userMarker = true ∨
       containsSub (acc ++ concatStr ps) assistantMarker = true) →
      ∃ t, t < ps.length ∧
        (scanPieces acc ps).2.2 = ps.take t ∧
        (scanPieces acc ps).2.1 = true ∧
        ∃ i, (isPrefOf userMarker ((acc ++ concatStr (ps.take (t + 1))).drop i) = true ∨
              isPrefOf assistantMarker ((acc ++ concatStr (ps.take (t + 1))).drop i) = true) ∧
          (scanPieces acc ps).1 = (acc ++ concatStr (ps.take (t + 1))).take i := by
  intro ps
  induction ps with
  | nil =>
    intro acc hu ha htrig
    rw [concatStr_nil, List.append_nil] at htrig
    rcases htrig with htrig | htrig
    · rw [hu] at htrig; cases htrig
    · rw [ha] at htrig; cases htrig
  | cons p ps ih =>
    intro acc hu ha htrig
    by_cases hstep : (containsSub (acc ++ p) userMarker ||
        containsSub (acc ++ p) assistantMarker) = true
    · obtain ⟨i, hocc, heq⟩ := stopCheck_trigger acc p hstep
      refine ⟨0, by simp, ?_, ?_, i, ?_, ?_⟩
      · simp [scanPieces, heq]
      · simp [scanPieces, heq]
      · simpa [concatStr_cons, concatStr_nil] using hocc
      · simp [scanPieces, heq, concatStr_cons, concatStr_nil]
    · have hu' : containsSub (acc ++ p) userMarker = false := by
        cases h1 : containsSub (acc ++ p) userMarker
        · rfl
        · exact absurd (by simp [h1]) hstep
      have ha' : containsSub (acc ++ p) assistantMarker = false := by
        cases h1 : containsSub (acc ++ p) assistantMarker
        · rfl
        · exact absurd (by simp [h1]) hstep
      have hnostop := stopCheck_nostop acc p (by simp [hu', ha'])
      have hassoc : acc ++ concatStr (p :: ps) = (acc ++ p) ++ concatStr ps := by
        rw [concatStr_cons, List.append_assoc]
      rw [hassoc] at htrig
      obtain ⟨t, htl, hemit, hstop, i, hocc, htext⟩ := ih (acc ++ p) hu' ha' htrig
      refine ⟨t + 1, by simpa using htl, ?_, ?_, i, ?_, ?_⟩
      · simp [scanPieces, hnostop, hemit]
      · simp [scanPieces, hnostop, hstop]
      · simpa [List.take_succ_cons, concatStr_cons, List.append_assoc] using hocc
      · simpa [scanPieces, hnostop, List.take_succ_cons, concatStr_cons,
          List.append_assoc] using htext

/-- C5.  Whenever the concatenation of the decoded fragments contains a
configured stop marker — in particular when the marker is split across
consecutive fragments — the wrapper loop detects it at the first fragment
completing it, signals stop, forwards only the earlier fragments (not the
one in progress), and truncates the accumulated text exactly at the start
of a marker occurrence. -/
theorem stop_marker_detected_and_truncated (ps : List Str)
    (h : containsSub (concatStr ps) userMarker = true ∨
         containsSub (concatStr ps) assistantMarker = true) :
    ∃ t, t < ps.length ∧
      (scanPieces [] ps).2.2 = ps.take t ∧
      (scanPieces [] ps).2.1 = true ∧
      ∃ i, (isPrefOf userMarker ((concatStr (ps.take (t + 1))).drop i) = true ∨
            isPrefOf assistantMarker ((concatStr (ps.take (t + 1))).drop i) = true) ∧
        (scanPieces [] ps).1 = (concatStr (ps.take (t + 1))).take i := by
  have h0u : containsSub [] userMarker = false := rfl
  have h0a : containsSub [] assistantMarker = false := rfl
  have := scanPieces_trigger ps [] h0u h0a (by simpa using h)
  simpa using this

/-- Witness for C5 on `piecesSplitMarker`, where `"\nUser:"` is split across
the last two fragments. -/
theorem stop_marker_detected_and_truncated_witness :
    ∃ t, t < piecesSplitMarker.length ∧
      (scanPieces [] piecesSplitMarker).2.2 = piecesSplitMarker.take t ∧
      (scanPieces [] piecesSplitMarker).2.1 = true ∧
      ∃ i, (isPrefOf userMarker
              ((concatStr (piecesSplitMarker.take (t + 1))).drop i) = true ∨
            isPrefOf assistantMarker
              ((concatStr (piecesSplitMarker.take (t + 1))).drop i) = true) ∧
        (scanPieces [] piecesSplitMarker).1 =
          (concatStr (piecesSplitMarker.take (t + 1))).take i :=
  stop_marker_detected_and_truncated piecesSplitMarker (Or.inl (by decide))

/-! ## Helper lemmas about the sampling pipeline -/

namespace LlamaChat

theorem candsFrom_length (i : Int) (ls : List ℚ) :
    (candsFrom i ls).length = ls.length := by
  induction ls generalizing i with
  | nil => rfl
  | cons l ls ih => simp [candsFrom, ih]

theorem initCands_length (logits : List ℚ) :
    (initCands logits).length = logits.length :=
  candsFrom_length 0 logits

theorem insertDesc_length (c : Cand) (l : List Cand) :
    (insertDesc c l).length = l.length + 1 := by
  induction l with
  | nil => rfl
  | cons d ds ih =>
    unfold insertDesc
    split
    · simp
    · simp [ih]

theorem sortDesc_length (cs : List Cand) :
    (sortDesc cs).length = cs.length := by
  induction cs with
  | nil => rfl
  | cons c cs ih => simp [sortDesc, insertDesc_length] at ih ⊢; omega

theorem insertDesc_perm (c : Cand) (l : List Cand) :
    List.Perm (insertDesc c l) (c :: l) := by
  induction l with
  | nil => exact List.Perm.refl _
  | cons d ds ih =>
    unfold insertDesc
    split
    · exact List.Perm.refl _
    · exact (ih.cons d).trans (List.Perm.swap c d ds)

theorem sortDesc_perm (cs : List Cand) : List.Perm (sortDesc cs) cs := by
  induction cs with
  | nil => exact List.Perm.refl _
  | cons c cs ih =>
    exact (insertDesc_perm c (sortDesc cs)).trans (ih.cons c)

/-- Inserting into a list whose head dominates it yields a list whose head
dominates the inserted element and the old list. -/
theorem insertDesc_head_max (a : Cand) (l : List Cand)
    (H : ∀ c t, l = c :: t → ∀ d ∈ l, d.score ≤ c.score) :
    ∀ c t, insertDesc a l = c :: t → ∀ d ∈ a :: l, d.score ≤ c.score := by
  cases l with
  | nil =>
    intro c t h d hd
    unfold insertDesc at h
    injection h with h1 _
    subst h1
    rcases List.mem_singleton.mp hd with rfl
    exact le_refl _
  | cons b bs =>
    intro c t h d hd
    unfold insertDesc at h
    by_cases hba : b.score < a.score
    · rw [if_pos hba] at h
      injection h with h1 _
      subst h1
      rcases List.mem_cons.mp hd with rfl | hd'
      · exact le_refl _
      · exact le_trans (H b bs rfl d hd') (le_of_lt hba)
    · rw [if_neg hba] at h
      injection h with h1 _
      subst h1
      rcases List.mem_cons.mp hd with rfl | hd'
      · exact le_of_not_lt hba
      · exact H b bs rfl d hd'

/-- The head of the descending sort dominates every element of the sorted
list. -/
theorem sortDesc_head_max_self :
    ∀ (cs : List Cand) (c : Cand) (rest : List Cand),
      sortDesc cs = c :: rest → ∀ d ∈ sortDesc cs, d.score ≤ c.score := by
  intro cs
  induction cs with
  | nil => intro c rest h; cases h
  | cons a cs ih =>
    intro c rest h d hd
    have hunf : sortDesc (a :: cs) = insertDesc a (sortDesc cs) := rfl
    rw [hunf] at h hd
    have hd' : d ∈ a :: sortDesc cs :=
      (insertDesc_perm a (sortDesc cs)).subset hd
    exact insertDesc_head_max a (sortDesc cs) ih c rest h d hd'

/-- The head of the descending sort dominates every input score. -/
theorem sortDesc_head_max (cs : List Cand) (c : Cand) (rest : List Cand)
    (h : sortDesc cs = c :: rest) : ∀ d ∈ cs, d.score ≤ c.score := by
  intro d hd
  have hd' : d ∈ sortDesc cs := (sortDesc_perm cs).symm.subset hd
  exact sortDesc_head_max_self cs c rest h d hd'

theorem sortDesc_head_mem (cs : List Cand) (c : Cand) (rest : List Cand)
    (h : sortDesc cs = c :: rest) : c ∈ cs := by
  have := (sortDesc_perm cs).subset
  rw [h] at this
  exact this (List.mem_cons_self c rest)

theorem applyPenalties_length (window : List Int) (rep freq pres : ℚ)
    (cs : List Cand) :
    (applyPenalties window rep freq pres cs).length = cs.length := by
  unfold applyPenalties
  split
  · rfl
  · simp

theorem penalizedCands_length (p : SamplingParams) (logits : List ℚ) :
    (penalizedCands p logits).length = logits.length := by
  unfold penalizedCands
  split
  · exact initCands_length logits
  · rw [applyPenalties_length]; exact initCands_length logits

theorem tempScale_one (cs : List Cand) : tempScale 1 cs = cs := by
  unfold tempScale
  simp only [div_one]
  induction cs with
  | nil => rfl
  | cons c cs ih => simp only [List.map_cons, ih]

theorem sum_map_div (l : List Cand) (f : Cand → ℚ) (b : ℚ) :
    (l.map (fun c => f c / b)).sum = (l.map f).sum / b := by
  induction l with
  | nil => simp
  | cons c cs ih => simp [ih, add_div]

/-- The cumulative draw lands inside the list as soon as the target `r` sits
between the running total and the final total. -/
theorem pickIdx_lt (r : ℚ) :
    ∀ (qs : List ℚ) (acc : ℚ) (i : Nat), acc ≤ r → r < acc + qs.sum →
      pickIdx r qs acc i < i + qs.length := by
  intro qs
  induction qs with
  | nil =>
    intro acc i hle h
    simp at h
    exact absurd h (not_lt.mpr hle)
  | cons q qs ih =>
    intro acc i hle h
    unfold pickIdx
    split
    · simp
    · rename_i hge
      have hle' : acc + q ≤ r := not_lt.mp hge
      have hlt' : r < (acc + q) + qs.sum := by
        rw [List.sum_cons] at h
        linarith
      have := ih (acc + q) (i + 1) hle' hlt'
      simp only [List.length_cons]
      omega

theorem getD_mem (cs : List Cand) (i : Nat) (d : Cand) (h : i < cs.length) :
    cs.getD i d ∈ cs := by
  induction cs generalizing i with
  | nil => simp at h
  | cons c cs ih =>
    cases i with
    | zero => simp [List.getD]
    | succ j =>
      simp only [List.length_cons] at h
      have := ih j (by omega)
      simp [List.getD] at this ⊢
      exact Or.inr this

/-- The draw over a non-empty candidate list with positive weights and a
target in `[0,1)` selects the token of one of the candidates. -/
theorem sampleDraw_mem (w : ℚ → ℚ) (r : ℚ) (cs : List Cand)
    (hw : ∀ x, 0 < w x) (hr0 : 0 ≤ r) (hr1 : r < 1) (hne : cs ≠ []) :
    sampleDraw w r cs ∈ cs.map Cand.token := by
  unfold sampleDraw
  have htot : 0 < (cs.map (fun c => w c.score)).sum := by
    apply List.sum_pos
    · intro x hx
      obtain ⟨c, -, rfl⟩ := List.mem_map.mp hx
      exact hw _
    · simp [hne]
  have hsum : ((cs.map (fun c => w c.score / (cs.map (fun c => w c.score)).sum))).sum = 1 := by
    rw [sum_map_div]
    exact div_self (ne_of_gt htot)
  have hlt : pickIdx r (cs.map (fun c => w c.score / (cs.map (fun c => w c.score)).sum)) 0 0 <
      cs.length := by
    have := pickIdx_lt r
      (cs.map (fun c => w c.score / (cs.map (fun c => w c.score)).sum)) 0 0
      hr0 (by rw [hsum]; linarith)
    simpa using this
  exact List.mem_map_of_mem Cand.token (getD_mem cs _ _ hlt)

end LlamaChat

/-- C4.  With temperature 1, top-k 0, top-p 1, and either an empty penalty
history or every penalty weight at its no-op value (repetition 1, frequency
0, presence 0 — the same neutral triple `llama_sample_repetition_penalties`
early-returns on, and the no-op repetition value named in the spec), every
stage of the pipeline is the identity up to the descending sort: the call
reduces to one softmax draw over the unmodified logits, the candidate list
fed to the draw is a permutation of the initial candidates (raw-logit
scores untouched), and the selected token is always one of the vocabulary
candidates — each of which has positive softmax weight. -/
theorem neutral_config_reduces_to_softmax (logits : List ℚ) (w : ℚ → ℚ)
    (r : ℚ) (p : SamplingParams) (hw : ∀ x, 0 < w x) (hr0 : 0 ≤ r)
    (hr1 : r < 1) (ht : p.temperature = 1) (hk : p.topK = 0) (hp : p.topP = 1)
    (hpen : p.repeatPenaltyTokens = [] ∨
      (p.repeatPenalty = 1 ∧ p.frequencyPenalty = 0 ∧ p.presencePenalty = 0))
    (hne : logits ≠ []) :
    SampleToken w r logits p = sampleDraw w r (sortDesc (initCands logits)) ∧
    List.Perm (sortDesc (initCands logits)) (initCands logits) ∧
    SampleToken w r logits p ∈ (initCands logits).map Cand.token := by
  have hlen : (initCands logits).length = logits.length := initCands_length logits
  have hne' : initCands logits ≠ [] := by
    intro hc
    rw [hc] at hlen
    exact hne (List.length_eq_zero.mp hlen.symm)
  have hpc : penalizedCands p logits = initCands logits := by
    unfold penalizedCands
    rcases hpen with hpen | hpen
    · rw [if_pos hpen]
    · split
      · rfl
      · unfold applyPenalties
        rw [if_pos (Or.inr hpen)]
  have hk' : topKFilter p.topK 1 (initCands logits) =
      sortDesc (initCands logits) := by
    unfold topKFilter
    rw [hk, if_pos (le_refl (0 : Int))]
    have h1 : 1 ≤ (initCands logits).length := by
      rw [hlen]
      exact Nat.one_le_iff_ne_zero.mpr (by simpa using hne)
    dsimp only
    rw [max_eq_left h1, Nat.min_self, ← sortDesc_length, List.take_length]
  have hp' : topPFilter w p.topP 1 (sortDesc (initCands logits)) =
      sortDesc (initCands logits) := by
    unfold topPFilter
    rw [hp, if_pos (le_refl (1 : ℚ))]
  have ht' : tempScale p.temperature (sortDesc (initCands logits)) =
      sortDesc (initCands logits) := by
    rw [ht]
    exact tempScale_one _
  have heq : SampleToken w r logits p =
      sampleDraw w r (sortDesc (initCands logits)) := by
    unfold SampleToken
    dsimp only
    rw [hpc, hk', hp', ht']
  refine ⟨heq, sortDesc_perm _, ?_⟩
  rw [heq]
  have hsne : sortDesc (initCands logits) ≠ [] := by
    intro hc
    have h2 := sortDesc_length (initCands logits)
    rw [hc] at h2
    exact hne' (List.length_eq_zero.mp h2.symm)
  have hmem := sampleDraw_mem w r (sortDesc (initCands logits)) hw hr0 hr1 hsne
  exact ((sortDesc_perm (initCands logits)).map Cand.token).subset hmem

/-- Witness for C4 at the logit vector `[1/2, 3, 2]` with constant softmax
weights, `r = 1/2`, and a non-empty penalty history whose three penalty
weights all sit at their no-op values. -/
theorem neutral_config_reduces_to_softmax_witness :
    SampleToken (fun _ => 1) (1/2) [1/2, 3, 2] pNeutralPenalties =
      sampleDraw (fun _ => 1) (1/2) (sortDesc (initCands [1/2, 3, 2])) ∧
    List.Perm (sortDesc (initCands [1/2, 3, 2])) (initCands [1/2, 3, 2]) ∧
    SampleToken (fun _ => 1) (1/2) [1/2, 3, 2] pNeutralPenalties ∈
      (initCands [1/2, 3, 2]).map Cand.token :=
  neutral_config_reduces_to_softmax [1/2, 3, 2] (fun _ => 1) (1/2)
    pNeutralPenalties (fun _ => one_pos) (by norm_num) (by norm_num) rfl rfl
    rfl (Or.inr ⟨rfl, rfl, rfl⟩) (by simp)

/-- C7.  With top-k 1, the candidate set collapses to a single entry before
the top-p and temperature stages run — independently of their settings —
and the selected token is exactly a maximum-score candidate of the
post-penalty set. -/
theorem top_k_one_selects_max (logits : List ℚ) (w : ℚ → ℚ) (r : ℚ)
    (p : SamplingParams) (hw : ∀ x, 0 < w x) (hr0 : 0 ≤ r) (hr1 : r < 1)
    (hk : p.topK = 1) (hne : logits ≠ []) :
    (topKFilter p.topK 1 (penalizedCands p logits)).length = 1 ∧
    ∃ c ∈ penalizedCands p logits, SampleToken w r logits p = c.token ∧
      ∀ d ∈ penalizedCands p logits, d.score ≤ c.score := by
  have hlen : (penalizedCands p logits).length = logits.length :=
    penalizedCands_length p logits
  have hlen1 : 1 ≤ (penalizedCands p logits).length := by
    rw [hlen]
    exact Nat.one_le_iff_ne_zero.mpr (by simpa using hne)
  obtain ⟨c, rest, hsort⟩ :
      ∃ c rest, sortDesc (penalizedCands p logits) = c :: rest := by
    cases hs : sortDesc (penalizedCands p logits) with
    | nil =>
      exfalso
      have h2 := sortDesc_length (penalizedCands p logits)
      rw [hs] at h2
      simp at h2
      omega
    | cons c rest => exact ⟨c, rest, rfl⟩
  have hwne : ∀ x, w x ≠ 0 := fun x => ne_of_gt (hw x)
  have hkf : topKFilter p.topK 1 (penalizedCands p logits) = [c] := by
    unfold topKFilter
    rw [hk, if_neg (by norm_num : ¬ (1 : Int) ≤ 0)]
    simp only [Int.toNat_one, max_self]
    rw [Nat.min_eq_left hlen1, hsort]
    rfl
  have hpf : topPFilter w p.topP 1 [c] = [c] := by
    unfold topPFilter
    by_cases h1p : (1 : ℚ) ≤ p.topP
    · rw [if_pos h1p]
    · rw [if_neg h1p]
      simp only [List.map_cons, List.map_nil, List.sum_cons, List.sum_nil,
        add_zero]
      rw [div_self (hwne c.score)]
      unfold cumKeep
      rw [if_pos ⟨by linarith [not_le.mp h1p], le_refl 1⟩]
      rfl
  have hts : tempScale p.temperature [c] =
      [⟨c.token, c.score / p.temperature⟩] := rfl
  have hdraw : sampleDraw w r [⟨c.token, c.score / p.temperature⟩] = c.token := by
    unfold sampleDraw
    simp only [List.map_cons, List.map_nil, List.sum_cons, List.sum_nil,
      add_zero]
    rw [div_self (hwne _)]
    unfold pickIdx
    rw [if_pos (by linarith : r < 0 + 1)]
    rfl
  have hsel : SampleToken w r logits p = c.token := by
    unfold SampleToken
    dsimp only
    rw [hkf, hpf, hts, hdraw]
  exact ⟨by rw [hkf]; rfl, c, sortDesc_head_mem _ c rest hsort, hsel,
    sortDesc_head_max _ c rest hsort⟩

/-- Witness for C7 at the logit vector `[1, 5, 3]` with non-neutral
temperature 2 and top-p 1/2. -/
theorem top_k_one_selects_max_witness :
    (topKFilter pTopK1.topK 1 (penalizedCands pTopK1 [1, 5, 3])).length = 1 ∧
    ∃ c ∈ penalizedCands pTopK1 [1, 5, 3],
      SampleToken (fun _ => 1) 0 [1, 5, 3] pTopK1 = c.token ∧
      ∀ d ∈ penalizedCands pTopK1 [1, 5, 3], d.score ≤ c.score :=
  top_k_one_selects_max [1, 5, 3] (fun _ => 1) 0 pTopK1 (fun _ => one_pos)
    (le_refl 0) (by norm_num) rfl (by simp)

/-- Witness for C9: the invariant holds on a concrete history where the
system prompt is set after a user turn. -/
theorem system_turn_unique_and_first_witness :
    SysInv (runOps [ChatOp.addUser "a".data, ChatOp.setSystem "s".data]) :=
  system_turn_unique_and_first.1 [ChatOp.addUser "a".data, ChatOp.setSystem "s".data]
